import Mathlib

/-!
# Occurrence monitor of `pkg/config/context.go`

A shallow embedding of `OccurrenceMonitor`, `NewOccurrenceMonitor`,
`OccurrenceMonitor.TrackSpecies` and `OccurrenceMonitor.resetState`, together
with the part of the Go runtime the monitor talks to: `time.AfterFunc` and
`(*time.Timer).Stop`.

Modelling conventions.

* `time.Duration` and instants are integers (nanoseconds).  The clock starts
  at `0` when the monitor is constructed.
* `map[string]int` is an association list with unique keys; the Go `nil` map
  is `none`.  Reading a missing key (or a `nil` map) gives `0`; assigning into
  a `nil` map is a run-time panic.
* Go's `int` is taken 64 bits wide, as on 64-bit platforms: a count is an
  integer between `minInt` and `maxInt`, and the increment wraps modulo
  `2^64` (`wrapInt`).  On a platform with a 32-bit `int` the same holds
  with `2^31` for `2^63`.
* `*time.Timer` is a handle: the index of the timer in the runtime's table.
  A runtime timer is `armed` from `time.AfterFunc` until it is stopped or its
  deadline passes; when the deadline passes the runtime starts the callback
  in a goroutine of its own (`fired`), which then has to take the monitor's
  mutex before its body runs (`done`).  `Stop` only affects an `armed` timer.
* `om.Mutex` makes the body of `TrackSpecies` and the body of the timer
  callback atomic; each is one step of the transition system.
-/

namespace Config

/-! ## Go maps -/

/-- Reading `m[k]` in a non-nil `map[string]int`: the zero value when absent. -/
def mapGet : List (String × Int) → String → Int
  | [], _ => 0
  | (k', v') :: rest, k => if k' = k then v' else mapGet rest k

/-- The assignment `m[k] = v` in a non-nil `map[string]int`. -/
def mapSet : List (String × Int) → String → Int → List (String × Int)
  | [], k, v => [(k, v)]
  | (k', v') :: rest, k, v =>
    if k' = k then (k, v) :: rest else (k', v') :: mapSet rest k v

/-- The largest value of Go's `int` (64 bits). -/
def maxInt : Int := 9223372036854775807

/-- The smallest value of Go's `int` (64 bits). -/
def minInt : Int := -9223372036854775808

/-- Result of an `int` operation whose exact value is `x`: `x` modulo `2^64`,
read in two's complement. -/
def wrapInt (x : Int) : Int :=
  (x + 9223372036854775808) % 18446744073709551616 - 9223372036854775808

/-- Reading `m[k]` in a possibly nil map: a nil map reads as empty. -/
def goMapGet (m : Option (List (String × Int))) (k : String) : Int :=
  match m with
  | none => 0
  | some l => mapGet l k

/-! ## Runtime timers -/

/-- Life cycle of a runtime timer created by `time.AfterFunc`. -/
inductive TimerStatus where
  /-- Waiting for its deadline; `Stop` would still prevent the callback. -/
  | armed
  /-- Deadline passed, callback goroutine started, body not yet run. -/
  | fired
  /-- Stopped by `Stop` before the deadline passed. -/
  | stopped
  /-- The callback body has run. -/
  | done
  deriving DecidableEq, Repr

/-- One runtime timer: the instant it is due and where it is in its life. -/
structure RTimer where
  deadline : Int
  status : TimerStatus
  deriving DecidableEq, Repr

/-- The method `(*time.Timer).Stop` on handle `h`: an armed timer is prevented from
firing; a timer that has already expired or been stopped is left alone. -/
def stopTimer (timers : List RTimer) (h : Nat) : List RTimer :=
  match timers[h]? with
  | some t =>
    if t.status = TimerStatus.armed then
      timers.set h { t with status := TimerStatus.stopped }
    else timers
  | none => timers

/-- The call `time.AfterFunc(d, f)` at instant `now`: a fresh armed timer due at
`now + d`; its handle is returned with the new table. -/
def afterFunc (timers : List RTimer) (now d : Int) : Nat × List RTimer :=
  (timers.length, timers ++ [{ deadline := now + d, status := TimerStatus.armed }])

/-! ## The monitor -/

/-- The struct `OccurrenceMonitor` (the mutex is the atomicity of the steps). -/
structure OccurrenceMonitor where
  LastSpecies : String
  OccurrenceMap : Option (List (String × Int))
  ResetDuration : Int
  Timer : Option Nat
  deriving DecidableEq, Repr

/-- The monitor together with the clock and the runtime's timer table. -/
structure World where
  now : Int
  timers : List RTimer
  om : OccurrenceMonitor
  deriving DecidableEq, Repr

/-- Constructor `NewOccurrenceMonitor`: a made (empty, non-nil) map and the
given duration; the other fields keep their zero values. -/
def NewOccurrenceMonitor (resetDuration : Int) : OccurrenceMonitor :=
  { LastSpecies := ""
    OccurrenceMap := some []
    ResetDuration := resetDuration
    Timer := none }

/-- The world right after `NewOccurrenceMonitor(resetDuration)`: clock at `0`,
no runtime timer yet. -/
def newWorld (resetDuration : Int) : World :=
  { now := 0, timers := [], om := NewOccurrenceMonitor resetDuration }

/-- Method `resetState`: a one-entry map, the new last species, `Stop` on the
old timer if there is one, and a new timer from `time.AfterFunc`. -/
def resetState (w : World) (species : String) : World :=
  let stopped :=
    match w.om.Timer with
    | some h => stopTimer w.timers h
    | none => w.timers
  let armed := afterFunc stopped w.now w.om.ResetDuration
  { w with
    timers := armed.2
    om := { w.om with
      OccurrenceMap := some [(species, 1)]
      LastSpecies := species
      Timer := some armed.1 } }

/-- Method `TrackSpecies`, run under the mutex.  The increment
`om.OccurrenceMap[species]++` is `int` arithmetic and wraps.  The result
`none` is the run-time panic of an assignment into a nil map. -/
def TrackSpecies (w : World) (species : String) : Option (Bool × World) :=
  if w.om.Timer = none ∨ w.om.LastSpecies ≠ species then
    some (false, resetState w species)
  else
    match w.om.OccurrenceMap with
    | none => none
    | some m =>
      let m' := mapSet m species (wrapInt (mapGet m species + 1))
      let w' := { w with om := { w.om with OccurrenceMap := some m' } }
      if mapGet m' species > 1 then some (true, w') else some (false, w')

/-- Body of the function handed to `time.AfterFunc`, run under the mutex: a
made empty map, no timer, empty last species. -/
def timerCallback (om : OccurrenceMonitor) : OccurrenceMonitor :=
  { om with OccurrenceMap := some [], Timer := none, LastSpecies := "" }

/-! ## Transition system -/

/-- The runtime notices that timer `h` is due: the callback goroutine is
started.  Enabled only for an armed timer whose deadline has passed. -/
def expire (w : World) (h : Nat) : Option World :=
  match w.timers[h]? with
  | some t =>
    if t.status = TimerStatus.armed ∧ t.deadline ≤ w.now then
      some { w with timers := w.timers.set h { t with status := TimerStatus.fired } }
    else none
  | none => none

/-- The callback goroutine of timer `h` gets the mutex and runs its body.
Enabled only when that goroutine was started and has not run yet. -/
def callback (w : World) (h : Nat) : Option World :=
  match w.timers[h]? with
  | some t =>
    if t.status = TimerStatus.fired then
      some { w with
        timers := w.timers.set h { t with status := TimerStatus.done }
        om := timerCallback w.om }
    else none
  | none => none

/-- Time passes. -/
def tick (w : World) (d : Nat) : World :=
  { w with now := w.now + d }

/-- What can happen to a monitor. -/
inductive Event where
  | track (species : String)
  | tick (d : Nat)
  | expire (h : Nat)
  | callback (h : Nat)
  deriving DecidableEq, Repr

/-- One step: the new world and the values returned by `TrackSpecies` in it
(none for the other events).  `none` when the event is not enabled or the
call panics. -/
def step (w : World) : Event → Option (World × List Bool)
  | Event.track s =>
    match TrackSpecies w s with
    | some (r, w') => some (w', [r])
    | none => none
  | Event.tick d => some (tick w d, [])
  | Event.expire h =>
    match expire w h with
    | some w' => some (w', [])
    | none => none
  | Event.callback h =>
    match callback w h with
    | some w' => some (w', [])
    | none => none

/-- A run: the final world and the results of the `TrackSpecies` calls in
order. -/
def exec (w : World) : List Event → Option (World × List Bool)
  | [] => some (w, [])
  | e :: es =>
    match step w e with
    | some (w', out) =>
      match exec w' es with
      | some (w'', outs) => some (w'', out ++ outs)
      | none => none
    | none => none

/-- States the monitor can be in: those at the end of a run from a new
monitor. -/
def Reachable (w : World) : Prop :=
  ∃ (resetDuration : Int) (es : List Event) (outs : List Bool),
    exec (newWorld resetDuration) es = some (w, outs)

/-- Number of runtime timers that are armed (not fired, not stopped). -/
def armedCount (w : World) : Nat :=
  (w.timers.filter (fun t => t.status = TimerStatus.armed)).length

/-- The pending timer of the monitor is a live one: `om.Timer` is the handle
of an armed runtime timer, due at `deadline`. -/
def PendingAt (w : World) (deadline : Int) : Prop :=
  ∃ h, w.om.Timer = some h ∧
    w.timers[h]? = some { deadline := deadline, status := TimerStatus.armed }

/-! ## Timers that fire on time -/

/-- Timer `h` fires on time: if it is armed and due, the runtime starts its
callback and the callback body runs. -/
def fireIfDue (w : World) (h : Nat) : World :=
  match expire w h with
  | some w₁ =>
    match callback w₁ h with
    | some w₂ => w₂
    | none => w₁
  | none => w

/-- Every runtime timer that is due fires, oldest handle first. -/
def fireDue (w : World) : World :=
  (List.range w.timers.length).foldl fireIfDue w

/-- The call `TrackSpecies(species)` made at instant `t` when timers fire on
time: the clock moves to `t`, the timers due by then fire, then the call
runs. -/
def TrackSpeciesAt (w : World) (t : Int) (species : String) : Option (Bool × World) :=
  TrackSpecies (fireDue (tick w (t - w.now).toNat)) species

/-! ## Sample states -/

/-- The state of a monitor with reset duration `W` inside its first run, of
key `s`, when the count of `s` is `n`: the state after the first
`TrackSpecies s` with the count set to `n`. -/
def runWorld (W : Int) (s : String) (n : Int) : World :=
  { resetState (newWorld W) s with
    om := { (resetState (newWorld W) s).om with OccurrenceMap := some [(s, n)] } }

/-- A monitor with reset duration 1000 whose timer, armed by
`TrackSpecies "a"` at instant 0, has just expired: the callback goroutine is
started and has not run. -/
def sampleFired : World :=
  { now := 1000
    timers := [{ deadline := 1000, status := TimerStatus.fired }]
    om := { LastSpecies := "a", OccurrenceMap := some [("a", 1)],
            ResetDuration := 1000, Timer := some 0 } }

/-- The state `sampleFired` after the callback has run. -/
def sampleDone : World :=
  { now := 1000
    timers := [{ deadline := 1000, status := TimerStatus.done }]
    om := NewOccurrenceMonitor 1000 }

/-- A run in which the timer armed for `"a"` expires just as `TrackSpecies "b"`
arrives: the callback goroutine of timer 0 is started, `TrackSpecies "b"`
gets the mutex first (its `Stop` comes too late for timer 0) and arms
timer 1. -/
def raceRun : List Event :=
  [Event.track "a", Event.tick 1, Event.expire 0, Event.track "b"]

/-- The state at the end of `raceRun` on a monitor with reset duration 1:
timer 0 fired with its callback still to run, timer 1 armed and pending,
the monitor tracking `"b"`. -/
def raceWorld : World :=
  { now := 1
    timers := [{ deadline := 1, status := TimerStatus.fired },
               { deadline := 2, status := TimerStatus.armed }]
    om := { LastSpecies := "b", OccurrenceMap := some [("b", 1)],
            ResetDuration := 1, Timer := some 1 } }

/-- The state `raceWorld` after the late callback of timer 0 has run. -/
def raceWorldAfter : World :=
  { now := 1
    timers := [{ deadline := 1, status := TimerStatus.done },
               { deadline := 2, status := TimerStatus.armed }]
    om := { LastSpecies := "", OccurrenceMap := some [],
            ResetDuration := 1, Timer := none } }

/-- A monitor built by hand with a nil map and a timer already set, as a
struct literal could be; `NewOccurrenceMonitor` never returns it. -/
def nilMapWorld : World :=
  { now := 0
    timers := [{ deadline := 5, status := TimerStatus.armed }]
    om := { LastSpecies := "a", OccurrenceMap := none,
            ResetDuration := 5, Timer := some 0 } }

/-! ## Runs without late callbacks -/

/-- Along the run no callback is late: each callback that runs belongs to the
timer that is the monitor's pending one at that moment. -/
def callbacksOnTime (w : World) : List Event → Bool
  | [] => true
  | e :: es =>
    (match e with
      | Event.callback h => decide (w.om.Timer = some h)
      | _ => true) &&
    (match step w e with
      | some (w', _) => callbacksOnTime w' es
      | none => true)

/-- Every armed runtime timer is the monitor's pending timer. -/
def ArmedIsPending (w : World) : Prop :=
  ∀ (i : Nat) (t : RTimer), w.timers[i]? = some t → t.status = TimerStatus.armed →
    w.om.Timer = some i

/-! ## The state machine of the specification -/

end Config

/-!
# PCM decoding and the seekable buffer of `internal/myaudio/encode.go`

* A byte is a number below 256; a byte slice is a list of bytes.
* `bytes.Buffer` is the list of its unread bytes, so `Len()` is its length.
* `int64` values are integers; sums of `int64` values wrap modulo `2^64`.
* The result pair `(int64, error)` of `Seek` is a number and an optional
  error message.
-/

namespace Myaudio

/-! ## Reading 16-bit samples -/

/-- The function `binary.LittleEndian.Uint16`: `uint16(b[0]) | uint16(b[1])<<8`. -/
def littleEndianUint16 (b0 b1 : Fin 256) : Nat :=
  b0.val ||| (b1.val <<< 8)

/-- The conversion `int16(u)` of a `uint16`: same 16 bits, read in two's
complement. -/
def toInt16 (u : Nat) : Int :=
  ((u : Int) + 32768) % 65536 - 32768

/-- The call `binary.Read(buf, binary.LittleEndian, &sample)` for an `int16`:
two bytes are taken from the buffer; with fewer than two bytes left the read
fails (`io.EOF` or `io.ErrUnexpectedEOF`), which is `none`. -/
def binaryReadInt16 : List (Fin 256) → Option (Int × List (Fin 256))
  | b0 :: b1 :: rest => some (toInt16 (littleEndianUint16 b0 b1), rest)
  | _ => none

/-- The loop of `byteSliceToInts`: as long as a sample can be read it is
appended, as an `int`, to the samples; the first failed read ends the loop. -/
def readSamples : List (Fin 256) → List Int → List Int
  | b0 :: b1 :: rest, samples =>
    readSamples rest (samples ++ [toInt16 (littleEndianUint16 b0 b1)])
  | _, samples => samples

/-- The function `byteSliceToInts`: the loop run on the whole slice from no
samples. -/
def byteSliceToInts (pcmData : List (Fin 256)) : List Int :=
  readSamples pcmData []

/-- The signed 16-bit little-endian value of a byte pair in the words of the
specification: `v = lo + 256 * hi`, minus `65536` when `v ≥ 32768`. -/
def int16LE (lo hi : Fin 256) : Int :=
  if 32768 ≤ lo.val + 256 * hi.val then
    ((lo.val + 256 * hi.val : Nat) : Int) - 65536
  else ((lo.val + 256 * hi.val : Nat) : Int)

/-! ## The seekable buffer -/

/-- The struct `seekableBuffer`: the embedded `bytes.Buffer` and `pos`. -/
structure seekableBuffer where
  Buffer : List (Fin 256)
  pos : Int
  deriving DecidableEq, Repr

/-- The method `Len` of the embedded `bytes.Buffer`, as an `int64`. -/
def seekableBuffer.Len (b : seekableBuffer) : Int :=
  (b.Buffer.length : Int)

/-- The value of `new(seekableBuffer)`: empty buffer, `pos = 0`. -/
def newSeekableBuffer : seekableBuffer :=
  { Buffer := [], pos := 0 }

/-- The constant `io.SeekStart`. -/
def SeekStart : Int := 0

/-- The constant `io.SeekCurrent`. -/
def SeekCurrent : Int := 1

/-- The constant `io.SeekEnd`. -/
def SeekEnd : Int := 2

/-- Values of type `int64`. -/
def InInt64 (x : Int) : Prop :=
  -9223372036854775808 ≤ x ∧ x ≤ 9223372036854775807

/-- Result of an `int64` addition: the sum modulo `2^64`, in two's
complement. -/
def wrapInt64 (x : Int) : Int :=
  (x + 9223372036854775808) % 18446744073709551616 - 9223372036854775808

/-- The end of `Seek`, after the `switch` has assigned `b.pos`: the check of
the sign of `b.pos` and the two `return`s. -/
def seekCheck (b : seekableBuffer) : seekableBuffer × Int × Option String :=
  if b.pos < 0 then (b, 0, some "seekableBuffer.Seek: negative position")
  else (b, b.pos, none)

/-- The method `Seek`: the buffer after the call, the returned number and
the returned error (`none` for `nil`). -/
def Seek (b : seekableBuffer) (offset whence : Int) :
    seekableBuffer × Int × Option String :=
  if whence = SeekStart then
    seekCheck { b with pos := offset }
  else if whence = SeekCurrent then
    seekCheck { b with pos := wrapInt64 (b.pos + offset) }
  else if whence = SeekEnd then
    seekCheck { b with pos := wrapInt64 (b.Len + offset) }
  else (b, 0, some "seekableBuffer.Seek: invalid whence")

/-- A sequence of `Seek` calls, given as `(offset, whence)` pairs, run one
after the other; the buffer after the last one. -/
def seekAll (b : seekableBuffer) : List (Int × Int) → seekableBuffer
  | [] => b
  | (offset, whence) :: rest => seekAll (Seek b offset whence).1 rest

/-- The target position of a `Seek` in the words of the `io.Seeker`
contract: relative to the start, to the current position or to the end;
no target for another `whence`. -/
def seekTarget (b : seekableBuffer) (offset whence : Int) : Option Int :=
  if whence = SeekStart then some offset
  else if whence = SeekCurrent then some (b.pos + offset)
  else if whence = SeekEnd then some (b.Len + offset)
  else none

end Myaudio

namespace Config

/-! ## Basic facts about the steps -/

theorem TrackSpecies_fresh (w : World) (k : String)
    (h : w.om.Timer = none ∨ w.om.LastSpecies ≠ k) :
    TrackSpecies w k = some (false, resetState w k) := by
  unfold TrackSpecies
  rw [if_pos h]

theorem wrapInt_of_range (x : Int) (hlo : minInt ≤ x) (hhi : x ≤ maxInt) :
    wrapInt x = x := by
  unfold minInt at hlo
  unfold maxInt at hhi
  unfold wrapInt
  omega

theorem wrapInt_succ_ne (x : Int) : wrapInt (x + 1) ≠ x := by
  unfold wrapInt
  omega

theorem wrapInt_maxInt_succ : wrapInt (maxInt + 1) = minInt := by
  unfold wrapInt maxInt minInt
  omega

theorem mapGet_mapSet_self (m : List (String × Int)) (k : String) (v : Int) :
    mapGet (mapSet m k v) k = v := by
  induction m with
  | nil => simp [mapSet, mapGet]
  | cons p rest ih =>
    obtain ⟨k', v'⟩ := p
    by_cases hk : k' = k
    · simp [mapSet, mapGet, hk]
    · simp [mapSet, mapGet, hk, ih]

theorem mapGet_mapSet_other (m : List (String × Int)) (k j : String) (v : Int)
    (hj : j ≠ k) : mapGet (mapSet m k v) j = mapGet m j := by
  induction m with
  | nil =>
    have hkj : ¬ k = j := fun e => hj e.symm
    simp [mapSet, mapGet, hkj]
  | cons p rest ih =>
    obtain ⟨k', v'⟩ := p
    by_cases hk : k' = k
    · have hkj : ¬ k = j := fun e => hj e.symm
      have hk'j : ¬ k' = j := fun e => hkj (hk ▸ e)
      simp [mapSet, mapGet, hk, hkj]
    · by_cases hk'j : k' = j
      · subst hk'j
        simp [mapSet, mapGet, hk]
      · simp [mapSet, mapGet, hk, hk'j, ih]

theorem TrackSpecies_repeat (w : World) (k : String) (h : Nat)
    (m : List (String × Int)) (hT : w.om.Timer = some h)
    (hL : w.om.LastSpecies = k) (hM : w.om.OccurrenceMap = some m) :
    TrackSpecies w k =
      some (decide (wrapInt (mapGet m k + 1) > 1),
        { w with om := { w.om with
            OccurrenceMap := some (mapSet m k (wrapInt (mapGet m k + 1))) } }) := by
  unfold TrackSpecies
  have hc : ¬ (w.om.Timer = none ∨ w.om.LastSpecies ≠ k) := by
    simp [hT, hL]
  rw [if_neg hc, hM]
  simp only [mapGet_mapSet_self]
  by_cases hg : wrapInt (mapGet m k + 1) > 1
  · simp [hg]
  · simp [hg]

theorem resetState_om (w : World) (k : String) :
    (resetState w k).om.LastSpecies = k ∧
    (resetState w k).om.OccurrenceMap = some [(k, 1)] ∧
    (resetState w k).om.ResetDuration = w.om.ResetDuration ∧
    (resetState w k).now = w.now := by
  simp [resetState]

theorem resetState_pending (w : World) (k : String) :
    PendingAt (resetState w k) (w.now + w.om.ResetDuration) := by
  refine ⟨(afterFunc (match w.om.Timer with
    | some h => stopTimer w.timers h
    | none => w.timers) w.now w.om.ResetDuration).1, ?_, ?_⟩
  · simp [resetState]
  · simp [resetState, afterFunc]

/-! ## Contract of a new monitor -/

/-- C1 (fresh start): for every reset duration and every key, the monitor
returned by `NewOccurrenceMonitor` has an empty `LastSpecies`, an empty
occurrence map and no timer (and the runtime holds no timer for it); the
first `TrackSpecies k` returns `false` and leaves `LastSpecies = k`,
`OccurrenceMap = {k: 1}` and a pending, armed timer due one reset duration
later. -/
theorem fresh_start (W : Int) (k : String) :
    (NewOccurrenceMonitor W).LastSpecies = "" ∧
    (NewOccurrenceMonitor W).OccurrenceMap = some [] ∧
    (NewOccurrenceMonitor W).Timer = none ∧
    (newWorld W).timers = [] ∧
    ∃ w, TrackSpecies (newWorld W) k = some (false, w) ∧
      w.om.LastSpecies = k ∧
      w.om.OccurrenceMap = some [(k, 1)] ∧
      PendingAt w (0 + W) := by
  refine ⟨rfl, rfl, rfl, rfl, resetState (newWorld W) k, ?_, ?_, ?_, ?_⟩
  · exact TrackSpecies_fresh _ _ (Or.inl rfl)
  · exact (resetState_om _ _).1
  · exact (resetState_om _ _).2.1
  · exact resetState_pending (newWorld W) k

/-- C2 (immediate repeat): for every key, on a new monitor the first
`TrackSpecies k` returns `false` and a second `TrackSpecies k`, made after
any amount of time during which no timer fired, returns `true`. -/
theorem immediate_repeat (W : Int) (k : String) (d : Nat) :
    ∃ w₁ w₂, TrackSpecies (newWorld W) k = some (false, w₁) ∧
      TrackSpecies (tick w₁ d) k = some (true, w₂) := by
  have h₂ := TrackSpecies_repeat (tick (resetState (newWorld W) k) d) k 0 [(k, 1)]
    (by simp [tick, resetState, afterFunc, newWorld, NewOccurrenceMonitor])
    (by simp [tick, resetState])
    (by simp [tick, resetState])
  have hget : mapGet [(k, 1)] k = 1 := by simp [mapGet]
  have hc : decide (wrapInt (mapGet [(k, 1)] k + 1) > 1) = true := by
    rw [hget, wrapInt_of_range (1 + 1) (by unfold minInt; omega) (by unfold maxInt; omega)]
    decide
  rw [hc] at h₂
  exact ⟨resetState (newWorld W) k, _, TrackSpecies_fresh _ _ (Or.inl rfl), h₂⟩

/-- C3 (key switch resets): for distinct keys `a` and `b`, with no timer
firing in between, `TrackSpecies a`, `TrackSpecies b`, `TrackSpecies a`
return `false`, `false`, `false`; after each switch the monitor tracks only
the new key, with count `1`, and the count of the other key reads `0`. -/
theorem key_switch_resets (W : Int) (a b : String) (hab : a ≠ b) :
    ∃ w₁ w₂ w₃, TrackSpecies (newWorld W) a = some (false, w₁) ∧
      TrackSpecies w₁ b = some (false, w₂) ∧
      TrackSpecies w₂ a = some (false, w₃) ∧
      w₂.om.LastSpecies = b ∧ w₂.om.OccurrenceMap = some [(b, 1)] ∧
      goMapGet w₂.om.OccurrenceMap a = 0 ∧
      w₃.om.LastSpecies = a ∧ w₃.om.OccurrenceMap = some [(a, 1)] ∧
      goMapGet w₃.om.OccurrenceMap b = 0 := by
  have hba : b ≠ a := fun e => hab e.symm
  refine ⟨resetState (newWorld W) a, resetState (resetState (newWorld W) a) b,
    resetState (resetState (resetState (newWorld W) a) b) a,
    TrackSpecies_fresh _ _ (Or.inl rfl), ?_, ?_, ?_, ?_, ?_, ?_, ?_, ?_⟩
  · exact TrackSpecies_fresh _ _ (Or.inr (by rw [(resetState_om _ _).1]; exact hab))
  · exact TrackSpecies_fresh _ _ (Or.inr (by rw [(resetState_om _ _).1]; exact hba))
  · exact (resetState_om _ _).1
  · exact (resetState_om _ _).2.1
  · rw [(resetState_om _ _).2.1]; simp [goMapGet, mapGet, hba]
  · exact (resetState_om _ _).1
  · exact (resetState_om _ _).2.1
  · rw [(resetState_om _ _).2.1]; simp [goMapGet, mapGet, hab]

/-- Witness of C3 at the keys `"a"` and `"b"` with a reset duration of 1000. -/
theorem key_switch_resets_witness :
    "a" ≠ "b" ∧
    ∃ w₁ w₂ w₃, TrackSpecies (newWorld 1000) "a" = some (false, w₁) ∧
      TrackSpecies w₁ "b" = some (false, w₂) ∧
      TrackSpecies w₂ "a" = some (false, w₃) ∧
      w₂.om.LastSpecies = "b" ∧ w₂.om.OccurrenceMap = some [("b", 1)] ∧
      goMapGet w₂.om.OccurrenceMap "a" = 0 ∧
      w₃.om.LastSpecies = "a" ∧ w₃.om.OccurrenceMap = some [("a", 1)] ∧
      goMapGet w₃.om.OccurrenceMap "b" = 0 :=
  ⟨by decide, key_switch_resets 1000 "a" "b" (by decide)⟩

end Config

namespace Config

/-! ## Expiry and the fixed window -/

theorem callback_om (w w' : World) (h : Nat) (hcb : callback w h = some w') :
    w'.om = timerCallback w.om ∧ w'.now = w.now := by
  unfold callback at hcb
  cases ht : w.timers[h]? with
  | none => simp [ht] at hcb
  | some t =>
    simp only [ht] at hcb
    by_cases hs : t.status = TimerStatus.fired
    · rw [if_pos hs] at hcb
      cases hcb
      exact ⟨rfl, rfl⟩
    · rw [if_neg hs] at hcb
      cases hcb

/-- C4 (expiry resets): whenever a timer callback runs, in whatever state,
the monitor ends with `LastSpecies` empty, `OccurrenceMap` empty and `Timer`
cleared, and the next `TrackSpecies` of any key returns `false`; so for
every key `a` and every wait `d` of at least the reset duration, the run
`TrackSpecies a`, timer expires, callback runs, `TrackSpecies a` returns
`false` twice. -/
theorem expiry_resets (w w' : World) (h : Nat) (W : Int) (a : String) (d : Nat)
    (hcb : callback w h = some w') (hd : W ≤ d) :
    (w'.om.LastSpecies = "" ∧ w'.om.OccurrenceMap = some [] ∧ w'.om.Timer = none) ∧
    (TrackSpecies w' a = some (false, resetState w' a)) ∧
    ∃ wf, exec (newWorld W)
        [Event.track a, Event.tick d, Event.expire 0, Event.callback 0, Event.track a]
      = some (wf, [false, false]) := by
  have hom := (callback_om w w' h hcb).1
  refine ⟨?_, ?_, ?_⟩
  · rw [hom]
    exact ⟨rfl, rfl, rfl⟩
  · apply TrackSpecies_fresh
    left
    rw [hom]
    rfl
  · simp [exec, step, TrackSpecies, resetState, afterFunc, newWorld, NewOccurrenceMonitor,
      tick, expire, callback, timerCallback, hd]

/-- Witness of C4: the callback of the timer armed by `TrackSpecies "a"` on a
monitor with reset duration 1000, run after 1000 time units. -/
theorem expiry_resets_witness :
    (sampleDone.om.LastSpecies = "" ∧ sampleDone.om.OccurrenceMap = some [] ∧
      sampleDone.om.Timer = none) ∧
    (TrackSpecies sampleDone "a" = some (false, resetState sampleDone "a")) ∧
    ∃ wf, exec (newWorld 1000)
        [Event.track "a", Event.tick 1000, Event.expire 0, Event.callback 0, Event.track "a"]
      = some (wf, [false, false]) :=
  expiry_resets sampleFired sampleDone 0 1000 "a" 1000 (by decide) (by decide)

/-- C5 (non-extension of the window): a `TrackSpecies k` call made while a
timer is pending and `LastSpecies = k` (map not nil) leaves the monitor's
timer handle, the whole runtime timer table (so the pending timer, its
status and its deadline), the clock, `LastSpecies` and the reset duration
unchanged; the count of `k` changes, to the wrapped increment of its old
value (one more, unless the old value is `maxInt`), and every other count
is unchanged.  With a reset duration of one second (in nanoseconds) and timers
firing on time, calls at 0 s, 0.5 s and 1.2 s return `false`, `true`, `false`;
after the second call the pending timer is still the one due at 1 s. -/
theorem window_not_extended (w : World) (k a : String) (h : Nat)
    (m : List (String × Int)) (hT : w.om.Timer = some h)
    (hL : w.om.LastSpecies = k) (hM : w.om.OccurrenceMap = some m) :
    (∃ r w', TrackSpecies w k = some (r, w') ∧
      w'.om.Timer = w.om.Timer ∧ w'.timers = w.timers ∧ w'.now = w.now ∧
      w'.om.LastSpecies = w.om.LastSpecies ∧
      w'.om.ResetDuration = w.om.ResetDuration ∧
      goMapGet w'.om.OccurrenceMap k = wrapInt (goMapGet w.om.OccurrenceMap k + 1) ∧
      goMapGet w'.om.OccurrenceMap k ≠ goMapGet w.om.OccurrenceMap k ∧
      (minInt ≤ goMapGet w.om.OccurrenceMap k → goMapGet w.om.OccurrenceMap k < maxInt →
        goMapGet w'.om.OccurrenceMap k = goMapGet w.om.OccurrenceMap k + 1) ∧
      ∀ j, j ≠ k → goMapGet w'.om.OccurrenceMap j = goMapGet w.om.OccurrenceMap j) ∧
    ∃ w₁ w₂ w₃,
      TrackSpeciesAt (newWorld 1000000000) 0 a = some (false, w₁) ∧
      PendingAt w₁ 1000000000 ∧
      TrackSpeciesAt w₁ 500000000 a = some (true, w₂) ∧
      PendingAt w₂ 1000000000 ∧
      TrackSpeciesAt w₂ 1200000000 a = some (false, w₃) := by
  constructor
  · have hcount : goMapGet (some (mapSet m k (wrapInt (mapGet m k + 1)))) k
        = wrapInt (goMapGet w.om.OccurrenceMap k + 1) := by
      simp [goMapGet, hM, mapGet_mapSet_self]
    refine ⟨_, _, TrackSpecies_repeat w k h m hT hL hM, rfl, rfl, rfl, rfl, rfl, hcount,
      ?_, ?_, ?_⟩
    · rw [hcount]
      exact wrapInt_succ_ne _
    · intro hlo hhi
      rw [hcount]
      exact wrapInt_of_range _ (by omega) (by omega)
    · intro j hj
      simp [goMapGet, hM, mapGet_mapSet_other m k j _ hj]
  · have h2 : wrapInt 2 = 2 :=
      wrapInt_of_range 2 (by unfold minInt; omega) (by unfold maxInt; omega)
    simp [TrackSpeciesAt, fireDue, fireIfDue, TrackSpecies, resetState, afterFunc, newWorld,
      NewOccurrenceMonitor, tick, expire, callback, timerCallback, mapGet, mapSet,
      List.range, List.range.loop, PendingAt, h2]

/-- Witness of C5: the state after one `TrackSpecies "a"` on a monitor with a
reset duration of one second. -/
theorem window_not_extended_witness :
    (∃ r w', TrackSpecies (resetState (newWorld 1000000000) "a") "a" = some (r, w') ∧
      w'.om.Timer = (resetState (newWorld 1000000000) "a").om.Timer ∧
      w'.timers = (resetState (newWorld 1000000000) "a").timers ∧
      w'.now = (resetState (newWorld 1000000000) "a").now ∧
      w'.om.LastSpecies = (resetState (newWorld 1000000000) "a").om.LastSpecies ∧
      w'.om.ResetDuration = (resetState (newWorld 1000000000) "a").om.ResetDuration ∧
      goMapGet w'.om.OccurrenceMap "a" =
        wrapInt (goMapGet (resetState (newWorld 1000000000) "a").om.OccurrenceMap "a" + 1) ∧
      goMapGet w'.om.OccurrenceMap "a" ≠
        goMapGet (resetState (newWorld 1000000000) "a").om.OccurrenceMap "a" ∧
      (minInt ≤ goMapGet (resetState (newWorld 1000000000) "a").om.OccurrenceMap "a" →
        goMapGet (resetState (newWorld 1000000000) "a").om.OccurrenceMap "a" < maxInt →
        goMapGet w'.om.OccurrenceMap "a" =
          goMapGet (resetState (newWorld 1000000000) "a").om.OccurrenceMap "a" + 1) ∧
      ∀ j, j ≠ "a" → goMapGet w'.om.OccurrenceMap j =
        goMapGet (resetState (newWorld 1000000000) "a").om.OccurrenceMap j) ∧
    ∃ w₁ w₂ w₃,
      TrackSpeciesAt (newWorld 1000000000) 0 "a" = some (false, w₁) ∧
      PendingAt w₁ 1000000000 ∧
      TrackSpeciesAt w₁ 500000000 "a" = some (true, w₂) ∧
      PendingAt w₂ 1000000000 ∧
      TrackSpeciesAt w₂ 1200000000 "a" = some (false, w₃) :=
  window_not_extended (resetState (newWorld 1000000000) "a") "a" "a" 0 [("a", 1)]
    (by decide) (by decide) (by decide)

end Config

namespace Config

/-! ## Counting within a run -/

theorem runWorld_one (W : Int) (s : String) : resetState (newWorld W) s = runWorld W s 1 := by
  simp [runWorld, resetState]

theorem runWorld_count (W : Int) (s : String) (n : Int) :
    goMapGet (runWorld W s n).om.OccurrenceMap s = n := by
  simp [runWorld, goMapGet, mapGet]

/-- One more call in a run whose count is below `maxInt`: `true`, count up by
one. -/
theorem TrackSpecies_runWorld (W : Int) (s : String) (n : Int)
    (h1 : 1 ≤ n) (h2 : n < maxInt) :
    TrackSpecies (runWorld W s n) s = some (true, runWorld W s (n + 1)) := by
  have hstep := TrackSpecies_repeat (runWorld W s n) s 0 [(s, n)]
    (by simp [runWorld, resetState, afterFunc, newWorld, NewOccurrenceMonitor])
    (by simp [runWorld, resetState]) (by simp [runWorld])
  have hget : mapGet [(s, n)] s = n := by simp [mapGet]
  have hw : wrapInt (n + 1) = n + 1 :=
    wrapInt_of_range _ (by unfold minInt; omega) (by omega)
  have hset : mapSet [(s, n)] s (n + 1) = [(s, n + 1)] := by simp [mapSet]
  have hdec : decide (n + 1 > 1) = true := by
    simp only [decide_eq_true_eq]; omega
  rw [hget, hw, hset, hdec] at hstep
  rw [hstep]
  simp [runWorld]

/-- One more call in a run whose count is `maxInt`: the increment wraps to
`minInt` and the call returns `false`. -/
theorem TrackSpecies_runWorld_maxInt (W : Int) (s : String) :
    TrackSpecies (runWorld W s maxInt) s = some (false, runWorld W s minInt) := by
  have hstep := TrackSpecies_repeat (runWorld W s maxInt) s 0 [(s, maxInt)]
    (by simp [runWorld, resetState, afterFunc, newWorld, NewOccurrenceMonitor])
    (by simp [runWorld, resetState]) (by simp [runWorld])
  have hget : mapGet [(s, maxInt)] s = maxInt := by simp [mapGet]
  have hset : mapSet [(s, maxInt)] s minInt = [(s, minInt)] := by simp [mapSet]
  have hdec : decide (minInt > 1) = false := by
    simp only [decide_eq_false_iff_not]; unfold minInt; omega
  rw [hget, wrapInt_maxInt_succ, hset, hdec] at hstep
  rw [hstep]
  simp [runWorld]

theorem exec_track_cons (w w' : World) (s : String) (r : Bool) (es : List Event)
    (h : TrackSpecies w s = some (r, w')) :
    exec w (Event.track s :: es) = (exec w' es).map (fun p => (p.1, r :: p.2)) := by
  simp only [exec, step, h]
  cases exec w' es with
  | none => rfl
  | some p => rfl

/-- Within a run of key `s` with count `n ≥ 1`, `j` further calls that keep
the count within `maxInt` all return `true` and bring the count to `n + j`,
touching nothing else. -/
theorem exec_repeats (W : Int) (s : String) (j : Nat) :
    ∀ (n : Int), 1 ≤ n → n + j ≤ maxInt →
      exec (runWorld W s n) (List.replicate j (Event.track s)) =
        some (runWorld W s (n + j), List.replicate j true) := by
  induction j with
  | zero =>
    intro n _ _
    simp only [List.replicate, exec, Nat.cast_zero, add_zero]
  | succ j ih =>
    intro n hn hmax
    have hstep := TrackSpecies_runWorld W s n hn (by push_cast at hmax; omega)
    have hrest := ih (n + 1) (by omega) (by push_cast at hmax; omega)
    simp only [List.replicate, exec, step, hstep, hrest]
    have hcast : n + 1 + (j : Int) = n + ((j + 1 : Nat) : Int) := by
      push_cast; ring
    simp [hcast]

/-- Within a run of key `s` with count `n ≥ 1`, the calls that bring the
count up to `maxInt` return `true`, and the next one wraps the count to
`minInt` and returns `false`. -/
theorem exec_repeats_wrap (W : Int) (s : String) (j : Nat) :
    ∀ (n : Int), 1 ≤ n → n + j = maxInt →
      exec (runWorld W s n) (List.replicate (j + 1) (Event.track s)) =
        some (runWorld W s minInt, List.replicate j true ++ [false]) := by
  induction j with
  | zero =>
    intro n _ hmax
    have hn : n = maxInt := by simpa using hmax
    subst hn
    simp only [List.replicate, exec, step, TrackSpecies_runWorld_maxInt]
    simp
  | succ j ih =>
    intro n hn hmax
    have hstep := TrackSpecies_runWorld W s n hn (by push_cast at hmax; omega)
    have hrest := ih (n + 1) (by omega) (by push_cast at hmax; omega)
    rw [List.replicate_succ, exec_track_cons _ _ _ _ _ hstep, hrest]
    simp [List.replicate_succ]

/-- The first `j + 1` calls of one key on a new monitor, while the count
stays within `maxInt`. -/
theorem exec_first_run (W : Int) (s : String) (j : Nat) (hj : 1 + (j : Int) ≤ maxInt) :
    exec (newWorld W) (List.replicate (j + 1) (Event.track s)) =
      some (runWorld W s (1 + j), false :: List.replicate j true) := by
  have h₁ := TrackSpecies_fresh (newWorld W) s (Or.inl rfl)
  rw [runWorld_one] at h₁
  have h₂ := exec_repeats W s j 1 (le_refl 1) hj
  rw [List.replicate_succ, exec_track_cons _ _ _ _ _ h₁, h₂]
  simp

/-- The calls of one key on a new monitor up to the one that wraps the
count: `1 + j = maxInt` calls count up, call number `maxInt + 1` returns
`false` and leaves the count at `minInt`. -/
theorem exec_wrapping_run (W : Int) (s : String) (j : Nat) (hj : 1 + (j : Int) = maxInt) :
    exec (newWorld W) (List.replicate (j + 1 + 1) (Event.track s)) =
      some (runWorld W s minInt, false :: (List.replicate j true ++ [false])) := by
  have h₁ := TrackSpecies_fresh (newWorld W) s (Or.inl rfl)
  rw [runWorld_one] at h₁
  have h₂ := exec_repeats_wrap W s j 1 (le_refl 1) hj
  rw [List.replicate_succ, exec_track_cons _ _ _ _ _ h₁, h₂]
  simp

theorem getLast_wrapping_run (j : Nat) :
    (false :: (List.replicate j true ++ [false])).getLast? = some false := by
  rw [← List.cons_append, List.getLast?_append]
  simp

/-- C6, as stated, fails at `k = 2^63`: after `2^63` consecutive calls
`TrackSpecies "a"` on a new monitor the count of `"a"` is `minInt = -2^63`,
not `2^63`, and the last call returned `false` although `k ≥ 2`.  The
counter is a 64-bit `int`: call number `2^63` increments `maxInt`. -/
theorem ordering_guarantee_counterexample :
    (9223372036854775806 + 1 + 1 : Nat) = 2 ^ 63 ∧
    ∃ w outs, exec (newWorld 1000)
        (List.replicate (9223372036854775806 + 1 + 1) (Event.track "a")) = some (w, outs) ∧
      goMapGet w.om.OccurrenceMap "a" = minInt ∧
      outs.getLast? = some false :=
  ⟨by norm_num, runWorld 1000 "a" minInt,
    false :: (List.replicate 9223372036854775806 true ++ [false]),
    exec_wrapping_run 1000 "a" 9223372036854775806 (by unfold maxInt; norm_num),
    runWorld_count 1000 "a" minInt, getLast_wrapping_run 9223372036854775806⟩

/-- C6 (amended, ordering guarantee): for every key `s` and every `k` with
`1 ≤ k ≤ maxInt` (`2^63 - 1`), `k` consecutive calls `TrackSpecies s` on a new
monitor (nothing else happening in between) return `false` once and then
`true` each time, so the `k`-th call returns `true` exactly when `k ≥ 2`;
afterwards `OccurrenceMap[s] = k` (and the map holds this single entry). -/
theorem ordering_guarantee (W : Int) (s : String) (k : Nat) (hk : 1 ≤ k)
    (hmax : (k : Int) ≤ maxInt) :
    ∃ w outs, exec (newWorld W) (List.replicate k (Event.track s)) = some (w, outs) ∧
      outs = false :: List.replicate (k - 1) true ∧
      outs[k - 1]? = some (decide (2 ≤ k)) ∧
      w.om.OccurrenceMap = some [(s, (k : Int))] ∧
      goMapGet w.om.OccurrenceMap s = k := by
  obtain ⟨j, rfl⟩ : ∃ j, k = j + 1 := ⟨k - 1, by omega⟩
  have hx := exec_first_run W s j (by push_cast at hmax; omega)
  have hcast : (1 : Int) + (j : Int) = ((j + 1 : Nat) : Int) := by
    push_cast; ring
  rw [hcast] at hx
  refine ⟨_, _, hx, ?_, ?_, ?_, ?_⟩
  · simp
  · cases j with
    | zero => simp
    | succ i => simp [List.getElem?_cons_succ, List.getElem?_replicate]
  · simp [runWorld]
  · exact runWorld_count W s _

/-- Witness of the amended C6 at `k = 3` for the key `"robin"`. -/
theorem ordering_guarantee_witness :
    1 ≤ 3 ∧ ((3 : Nat) : Int) ≤ maxInt ∧
    ∃ w outs, exec (newWorld 200) (List.replicate 3 (Event.track "robin")) = some (w, outs) ∧
      outs = false :: List.replicate (3 - 1) true ∧
      outs[3 - 1]? = some (decide (2 ≤ 3)) ∧
      w.om.OccurrenceMap = some [("robin", ((3 : Nat) : Int))] ∧
      goMapGet w.om.OccurrenceMap "robin" = (3 : Nat) :=
  ⟨by decide, by decide, ordering_guarantee 200 "robin" 3 (by decide) (by decide)⟩

end Config

namespace Config

/-! ## Late callbacks -/

/-- C7 fails on the code: at the end of `raceRun` the monitor tracks `"b"`
with timer 1 pending and armed; `resetState` called `Stop` on the superseded
timer 0, too late, so its callback is still enabled, and running it changes
`LastSpecies`, `OccurrenceMap` and `Timer` (to the empty baseline) instead of
leaving them unchanged.  The run of `"b"` is lost: a `TrackSpecies "b"` right
after, within the window of timer 1, returns `false`. -/
theorem stale_callback_counterexample :
    exec (newWorld 1) raceRun = some (raceWorld, [false, false]) ∧
    raceWorld.om.Timer = some 1 ∧ PendingAt raceWorld 2 ∧
    callback raceWorld 0 = some raceWorldAfter ∧
    raceWorldAfter.om.LastSpecies ≠ raceWorld.om.LastSpecies ∧
    raceWorldAfter.om.OccurrenceMap ≠ raceWorld.om.OccurrenceMap ∧
    raceWorldAfter.om.Timer ≠ raceWorld.om.Timer ∧
    (exec (newWorld 1) (raceRun ++ [Event.callback 0, Event.track "b"])).map Prod.snd
      = some [false, false, false] := by
  refine ⟨by decide, by decide, ⟨1, by decide, by decide⟩, by decide, by decide,
    by decide, by decide, by decide⟩

theorem callback_timers_other (w w' : World) (h h' : Nat)
    (hcb : callback w h = some w') (hne : h' ≠ h) :
    w'.timers[h']? = w.timers[h']? := by
  unfold callback at hcb
  cases ht : w.timers[h]? with
  | none => simp [ht] at hcb
  | some t =>
    simp only [ht] at hcb
    by_cases hs : t.status = TimerStatus.fired
    · rw [if_pos hs] at hcb
      cases hcb
      simp [List.getElem?_set, hne.symm]
    · rw [if_neg hs] at hcb
      cases hcb

/-- The defect behind C7 in general: a callback that runs after its timer `h`
has been superseded by a newer pending timer `h'` is not a no-op.  It sets
`LastSpecies` to empty, `OccurrenceMap` to the empty map and `Timer` to nil,
so the pending handle is lost, while the newer runtime timer `h'` stays as it
was (still armed if it was). -/
theorem stale_callback_resets (w w' : World) (h h' : Nat)
    (hcb : callback w h = some w') (hT : w.om.Timer = some h') (hne : h' ≠ h) :
    w'.om.LastSpecies = "" ∧ w'.om.OccurrenceMap = some [] ∧ w'.om.Timer = none ∧
    w'.om.Timer ≠ w.om.Timer ∧
    w'.timers[h']? = w.timers[h']? := by
  have hom := (callback_om w w' h hcb).1
  refine ⟨?_, ?_, ?_, ?_, callback_timers_other w w' h h' hcb hne⟩
  · rw [hom]; rfl
  · rw [hom]; rfl
  · rw [hom]; rfl
  · rw [hom, hT]
    simp [timerCallback]

/-- The late callback at the end of `raceRun` is an instance. -/
theorem stale_callback_resets_witness :
    raceWorldAfter.om.LastSpecies = "" ∧ raceWorldAfter.om.OccurrenceMap = some [] ∧
    raceWorldAfter.om.Timer = none ∧
    raceWorldAfter.om.Timer ≠ raceWorld.om.Timer ∧
    raceWorldAfter.timers[1]? = raceWorld.timers[1]? :=
  stale_callback_resets raceWorld raceWorldAfter 0 1 (by decide) (by decide) (by decide)

/-- C8 fails on the code: the run `raceRun`, then the late callback of
timer 0, then `TrackSpecies "c"`, is a run from a new monitor after which two
runtime timers (handles 1 and 2) are armed at once.  The last call found
`Timer` nil, so it armed timer 2 without stopping timer 1. -/
theorem two_timers_armed :
    ∃ w, exec (newWorld 1) (raceRun ++ [Event.callback 0, Event.track "c"])
        = some (w, [false, false, false]) ∧
      Reachable w ∧
      armedCount w = 2 ∧
      w.timers[1]? = some { deadline := 2, status := TimerStatus.armed } ∧
      w.timers[2]? = some { deadline := 2, status := TimerStatus.armed } ∧
      w.om.Timer = some 2 ∧
      TrackSpecies raceWorldAfter "c" = some (false, w) := by
  refine ⟨resetState raceWorldAfter "c", by decide,
    ⟨1, raceRun ++ [Event.callback 0, Event.track "c"], [false, false, false], by decide⟩,
    by decide, by decide, by decide, by decide, by decide⟩

end Config

namespace Config

/-! ## Construction -/

/-- C9, as stated, fails: `NewOccurrenceMonitor` returns a monitor for the
reset durations `0` and `-5` too, storing the value as given, and
`TrackSpecies` works on it (`false`, then `true` on an immediate repeat). -/
theorem nonpositive_duration_counterexample :
    (NewOccurrenceMonitor 0).ResetDuration = 0 ∧
    (NewOccurrenceMonitor (-5)).ResetDuration = -5 ∧
    TrackSpecies (newWorld 0) "a" = some (false, resetState (newWorld 0) "a") ∧
    (exec (newWorld (-5)) [Event.track "a", Event.track "a"]).map Prod.snd
      = some [false, true] := by
  refine ⟨rfl, rfl, by decide, by decide⟩

/-- C9 (amended): construction with a reset duration `W ≤ 0` is accepted.
`NewOccurrenceMonitor W` returns the same empty monitor as for any other
duration, with `ResetDuration = W` stored unchanged; `TrackSpecies` on it
returns `false` and arms a timer whose deadline `0 + W` is not after the
instant of the call, so the runtime may start its callback at once. -/
theorem nonpositive_duration_accepted (W : Int) (k : String) (hW : W ≤ 0) :
    (NewOccurrenceMonitor W).ResetDuration = W ∧
    (NewOccurrenceMonitor W).LastSpecies = "" ∧
    (NewOccurrenceMonitor W).OccurrenceMap = some [] ∧
    (NewOccurrenceMonitor W).Timer = none ∧
    ∃ w, TrackSpecies (newWorld W) k = some (false, w) ∧
      PendingAt w (0 + W) ∧ 0 + W ≤ w.now ∧
      ∃ w', expire w 0 = some w' := by
  refine ⟨rfl, rfl, rfl, rfl, resetState (newWorld W) k,
    TrackSpecies_fresh _ _ (Or.inl rfl), resetState_pending (newWorld W) k, ?_, ?_⟩
  · simp [resetState, newWorld, hW]
  · simp [expire, resetState, afterFunc, newWorld, NewOccurrenceMonitor, hW]

/-- Witness of the amended C9 at the reset duration `-5`. -/
theorem nonpositive_duration_accepted_witness :
    (-5 : Int) ≤ 0 ∧
    (NewOccurrenceMonitor (-5)).ResetDuration = -5 ∧
    (NewOccurrenceMonitor (-5)).LastSpecies = "" ∧
    (NewOccurrenceMonitor (-5)).OccurrenceMap = some [] ∧
    (NewOccurrenceMonitor (-5)).Timer = none ∧
    ∃ w, TrackSpecies (newWorld (-5)) "a" = some (false, w) ∧
      PendingAt w (0 + -5) ∧ 0 + -5 ≤ w.now ∧
      ∃ w', expire w 0 = some w' :=
  ⟨by decide, nonpositive_duration_accepted (-5) "a" (by decide)⟩

/-! ## Totality -/

theorem TrackSpecies_map (w w' : World) (k : String) (r : Bool)
    (h : TrackSpecies w k = some (r, w')) : ∃ m, w'.om.OccurrenceMap = some m := by
  unfold TrackSpecies at h
  by_cases hc : w.om.Timer = none ∨ w.om.LastSpecies ≠ k
  · rw [if_pos hc] at h
    cases h
    exact ⟨_, (resetState_om w k).2.1⟩
  · rw [if_neg hc] at h
    cases hM : w.om.OccurrenceMap with
    | none => simp [hM] at h
    | some m =>
      simp only [hM] at h
      by_cases hg : mapGet (mapSet m k (wrapInt (mapGet m k + 1))) k > 1
      · rw [if_pos hg] at h
        cases h
        exact ⟨_, rfl⟩
      · rw [if_neg hg] at h
        cases h
        exact ⟨_, rfl⟩

theorem expire_om (w w' : World) (h : Nat) (hex : expire w h = some w') :
    w'.om = w.om ∧ w'.now = w.now := by
  unfold expire at hex
  cases ht : w.timers[h]? with
  | none => simp [ht] at hex
  | some t =>
    simp only [ht] at hex
    by_cases hs : t.status = TimerStatus.armed ∧ t.deadline ≤ w.now
    · rw [if_pos hs] at hex
      cases hex
      exact ⟨rfl, rfl⟩
    · rw [if_neg hs] at hex
      cases hex

theorem step_map (w w' : World) (e : Event) (out : List Bool)
    (hm : ∃ m, w.om.OccurrenceMap = some m) (h : step w e = some (w', out)) :
    ∃ m, w'.om.OccurrenceMap = some m := by
  cases e with
  | track s =>
    simp only [step] at h
    cases hts : TrackSpecies w s with
    | none => simp [hts] at h
    | some p =>
      obtain ⟨r, w₁⟩ := p
      simp only [hts] at h
      cases h
      exact TrackSpecies_map w _ s r hts
  | tick d =>
    simp only [step] at h
    cases h
    exact hm
  | expire i =>
    simp only [step] at h
    cases hex : expire w i with
    | none => simp [hex] at h
    | some w₁ =>
      simp only [hex] at h
      cases h
      rw [(expire_om w _ i hex).1]
      exact hm
  | callback i =>
    simp only [step] at h
    cases hcb : callback w i with
    | none => simp [hcb] at h
    | some w₁ =>
      simp only [hcb] at h
      cases h
      rw [(callback_om w _ i hcb).1]
      exact ⟨[], rfl⟩

/-- A property of worlds kept by every step holds at the end of every run
that starts in a world where it holds. -/
theorem exec_invariant (P : World → Prop)
    (hstep : ∀ w w' e out, P w → step w e = some (w', out) → P w') :
    ∀ (es : List Event) (w w' : World) (outs : List Bool),
      P w → exec w es = some (w', outs) → P w' := by
  intro es
  induction es with
  | nil =>
    intro w w' outs hP h
    simp only [exec] at h
    cases h
    exact hP
  | cons e es ih =>
    intro w w' outs hP h
    simp only [exec] at h
    cases hs : step w e with
    | none => simp [hs] at h
    | some p =>
      obtain ⟨w₁, out⟩ := p
      simp only [hs] at h
      cases hx : exec w₁ es with
      | none => simp [hx] at h
      | some q =>
        obtain ⟨w₂, outs₂⟩ := q
        simp only [hx] at h
        cases h
        exact ih w₁ _ outs₂ (hstep w w₁ e out hP hs) hx

theorem reachable_map (w : World) (hr : Reachable w) :
    ∃ m, w.om.OccurrenceMap = some m := by
  obtain ⟨W, es, outs, hx⟩ := hr
  exact exec_invariant (fun w => ∃ m, w.om.OccurrenceMap = some m)
    (fun w w' e out hP h => step_map w w' e out hP h) es (newWorld W) w outs
    ⟨[], rfl⟩ hx

/-- C10 (totality): in every state reachable from a new monitor by
`TrackSpecies` calls, passing time, timer expiries and callbacks, and for
every key (the empty string included), `TrackSpecies` returns a boolean and a
next state rather than panicking; the occurrence map is never nil there, in
particular not when a timer is set and the repeat branch increments. -/
theorem TrackSpecies_total (w : World) (k : String) (hr : Reachable w) :
    (∃ r w', TrackSpecies w k = some (r, w')) ∧
    (∃ r w', TrackSpecies w "" = some (r, w')) ∧
    (∃ m, w.om.OccurrenceMap = some m) ∧
    (w.om.Timer ≠ none → w.om.OccurrenceMap ≠ none) := by
  obtain ⟨m, hm⟩ := reachable_map w hr
  have total : ∀ s, ∃ r w', TrackSpecies w s = some (r, w') := by
    intro s
    by_cases hc : w.om.Timer = none ∨ w.om.LastSpecies ≠ s
    · exact ⟨false, _, TrackSpecies_fresh w s hc⟩
    · have hT : ∃ h, w.om.Timer = some h := by
        cases hTimer : w.om.Timer with
        | none => exact absurd (Or.inl hTimer) hc
        | some h => exact ⟨h, rfl⟩
      obtain ⟨h, hT⟩ := hT
      have hL : w.om.LastSpecies = s := by
        by_contra hne
        exact hc (Or.inr hne)
      exact ⟨_, _, TrackSpecies_repeat w s h m hT hL hm⟩
  refine ⟨total k, total "", ⟨m, hm⟩, ?_⟩
  intro _
  rw [hm]
  simp

/-- Witness of C10 at the state `raceWorldAfter`, which is reached from a new
monitor by `raceRun` followed by the late callback. -/
theorem TrackSpecies_total_witness :
    (∃ r w', TrackSpecies raceWorldAfter "c" = some (r, w')) ∧
    (∃ r w', TrackSpecies raceWorldAfter "" = some (r, w')) ∧
    (∃ m, raceWorldAfter.om.OccurrenceMap = some m) ∧
    (raceWorldAfter.om.Timer ≠ none → raceWorldAfter.om.OccurrenceMap ≠ none) :=
  TrackSpecies_total raceWorldAfter "c"
    ⟨1, raceRun ++ [Event.callback 0], [false, false], by decide⟩

/-- Outside the reachable states the panic is real: on a monitor with a nil
map and a timer set, the repeat branch of `TrackSpecies` panics. -/
theorem TrackSpecies_nil_map_panics : TrackSpecies nilMapWorld "a" = none := by
  decide

end Config

namespace Config

/-! ## One timer at a time, as long as no callback is late -/

theorem stopTimer_not_armed (l : List RTimer) (h : Nat)
    (hl : ∀ (i : Nat) (t : RTimer), l[i]? = some t → t.status = TimerStatus.armed → i = h) :
    ∀ (i : Nat) (t : RTimer), (stopTimer l h)[i]? = some t →
      t.status ≠ TimerStatus.armed := by
  intro i t hi ha
  unfold stopTimer at hi
  cases hh : l[h]? with
  | none =>
    simp only [hh] at hi
    have := hl i t hi ha
    subst this
    rw [hh] at hi
    cases hi
  | some th =>
    simp only [hh] at hi
    by_cases hs : th.status = TimerStatus.armed
    · rw [if_pos hs] at hi
      rw [List.getElem?_set] at hi
      by_cases hih : h = i
      · rw [if_pos hih] at hi
        split at hi
        · cases hi
          simp at ha
        · cases hi
      · rw [if_neg hih] at hi
        exact hih (hl i t hi ha).symm
    · rw [if_neg hs] at hi
      have := hl i t hi ha
      subst this
      rw [hh] at hi
      cases hi
      exact hs ha

theorem resetState_armedIsPending (w : World) (k : String) (hJ : ArmedIsPending w) :
    ArmedIsPending (resetState w k) := by
  have hno : ∀ (i : Nat) (t : RTimer), (match w.om.Timer with
      | some h => stopTimer w.timers h
      | none => w.timers)[i]? = some t → t.status ≠ TimerStatus.armed := by
    cases hT : w.om.Timer with
    | none =>
      intro i t hi ha
      have := hJ i t hi ha
      rw [hT] at this
      cases this
    | some h =>
      apply stopTimer_not_armed
      intro i t hi ha
      have := hJ i t hi ha
      rw [hT] at this
      cases this
      rfl
  intro i t hi ha
  simp only [resetState, afterFunc] at hi ⊢
  rw [List.getElem?_append] at hi
  split at hi
  · exact absurd ha (hno i t hi)
  · rename_i hlt
    have hle := Nat.le_of_not_lt hlt
    by_cases heq : i = (match w.om.Timer with
      | some h => stopTimer w.timers h
      | none => w.timers).length
    · rw [heq]
    · have hpos : 0 < i - (match w.om.Timer with
        | some h => stopTimer w.timers h
        | none => w.timers).length := by omega
      obtain ⟨n, hn⟩ : ∃ n, i - (match w.om.Timer with
        | some h => stopTimer w.timers h
        | none => w.timers).length = n + 1 := ⟨_, (Nat.succ_pred_eq_of_pos hpos).symm⟩
      rw [hn] at hi
      simp at hi

theorem expire_armedIsPending (w w' : World) (h : Nat) (hJ : ArmedIsPending w)
    (hex : expire w h = some w') : ArmedIsPending w' := by
  unfold expire at hex
  cases ht : w.timers[h]? with
  | none => simp [ht] at hex
  | some th =>
    simp only [ht] at hex
    by_cases hs : th.status = TimerStatus.armed ∧ th.deadline ≤ w.now
    · rw [if_pos hs] at hex
      cases hex
      intro i t hi ha
      simp only at hi ⊢
      rw [List.getElem?_set] at hi
      by_cases hih : h = i
      · rw [if_pos hih] at hi
        split at hi
        · cases hi
          simp at ha
        · cases hi
      · rw [if_neg hih] at hi
        exact hJ i t hi ha
    · rw [if_neg hs] at hex
      cases hex

theorem callback_armedIsPending (w w' : World) (h : Nat) (hJ : ArmedIsPending w)
    (hT : w.om.Timer = some h) (hcb : callback w h = some w') : ArmedIsPending w' := by
  unfold callback at hcb
  cases ht : w.timers[h]? with
  | none => simp [ht] at hcb
  | some th =>
    simp only [ht] at hcb
    by_cases hs : th.status = TimerStatus.fired
    · rw [if_pos hs] at hcb
      cases hcb
      intro i t hi ha
      simp only at hi
      rw [List.getElem?_set] at hi
      by_cases hih : h = i
      · rw [if_pos hih] at hi
        split at hi
        · cases hi
          simp at ha
        · cases hi
      · rw [if_neg hih] at hi
        have := hJ i t hi ha
        rw [hT] at this
        cases this
        exact absurd rfl hih
    · rw [if_neg hs] at hcb
      cases hcb

theorem TrackSpecies_armedIsPending (w w' : World) (k : String) (r : Bool)
    (hJ : ArmedIsPending w) (h : TrackSpecies w k = some (r, w')) : ArmedIsPending w' := by
  unfold TrackSpecies at h
  by_cases hc : w.om.Timer = none ∨ w.om.LastSpecies ≠ k
  · rw [if_pos hc] at h
    cases h
    exact resetState_armedIsPending w k hJ
  · rw [if_neg hc] at h
    cases hM : w.om.OccurrenceMap with
    | none => simp [hM] at h
    | some m =>
      simp only [hM] at h
      by_cases hg : mapGet (mapSet m k (wrapInt (mapGet m k + 1))) k > 1
      · rw [if_pos hg] at h
        cases h
        exact hJ
      · rw [if_neg hg] at h
        cases h
        exact hJ

theorem exec_armedIsPending (es : List Event) :
    ∀ (w w' : World) (outs : List Bool), ArmedIsPending w →
      callbacksOnTime w es = true → exec w es = some (w', outs) → ArmedIsPending w' := by
  induction es with
  | nil =>
    intro w w' outs hJ _ h
    simp only [exec] at h
    cases h
    exact hJ
  | cons e es ih =>
    intro w w' outs hJ hot h
    simp only [exec] at h
    simp only [callbacksOnTime, Bool.and_eq_true] at hot
    obtain ⟨hcbT, hrest⟩ := hot
    cases hs : step w e with
    | none => simp [hs] at h
    | some p =>
      obtain ⟨w₁, out⟩ := p
      simp only [hs] at h hrest
      cases hx : exec w₁ es with
      | none => simp [hx] at h
      | some q =>
        obtain ⟨w₂, outs₂⟩ := q
        simp only [hx] at h
        cases h
        refine ih w₁ _ outs₂ ?_ hrest hx
        cases e with
        | track s =>
          simp only [step] at hs
          cases hts : TrackSpecies w s with
          | none => simp [hts] at hs
          | some p =>
            obtain ⟨r, w₃⟩ := p
            simp only [hts] at hs
            cases hs
            exact TrackSpecies_armedIsPending w _ s r hJ hts
        | tick d =>
          simp only [step] at hs
          cases hs
          exact hJ
        | expire i =>
          simp only [step] at hs
          cases hex : expire w i with
          | none => simp [hex] at hs
          | some w₃ =>
            simp only [hex] at hs
            cases hs
            exact expire_armedIsPending w _ i hJ hex
        | callback i =>
          simp only [step] at hs
          cases hcb : callback w i with
          | none => simp [hcb] at hs
          | some w₃ =>
            simp only [hcb] at hs
            cases hs
            exact callback_armedIsPending w _ i hJ (by simpa using hcbT) hcb

theorem filter_armed_length (l : List RTimer)
    (hu : ∀ (i j : Nat) (s t : RTimer), l[i]? = some s → l[j]? = some t →
      s.status = TimerStatus.armed → t.status = TimerStatus.armed → i = j) :
    (l.filter (fun t => t.status = TimerStatus.armed)).length ≤ 1 := by
  induction l with
  | nil => simp
  | cons a rest ih =>
    have hrest : ∀ (i j : Nat) (s t : RTimer), rest[i]? = some s → rest[j]? = some t →
        s.status = TimerStatus.armed → t.status = TimerStatus.armed → i = j := by
      intro i j s t hi hj hs ht
      have := hu (i + 1) (j + 1) s t (by simpa using hi) (by simpa using hj) hs ht
      omega
    by_cases ha : a.status = TimerStatus.armed
    · have hnone : rest.filter (fun t => t.status = TimerStatus.armed) = [] := by
        rw [List.filter_eq_nil_iff]
        intro t ht
        obtain ⟨j, hj⟩ := List.getElem?_of_mem ht
        intro hta
        have := hu 0 (j + 1) a t (by simp) (by simpa using hj) ha (by simpa using hta)
        omega
      simp [List.filter, ha, hnone]
    · simp only [List.filter, ha, decide_False]
      exact ih hrest


/-- In a run from a new monitor in which no callback is late, every armed
runtime timer is the monitor's pending timer, so at most one is armed: the
`Stop` in `resetState` does keep a single timer outstanding there. -/
theorem single_timer_on_time (W : Int) (es : List Event) (w : World) (outs : List Bool)
    (hx : exec (newWorld W) es = some (w, outs))
    (hot : callbacksOnTime (newWorld W) es = true) :
    ArmedIsPending w ∧ armedCount w ≤ 1 := by
  have h0 : ArmedIsPending (newWorld W) := by
    intro i t hi _
    simp [newWorld] at hi
  have hJ := exec_armedIsPending es (newWorld W) w outs h0 hot hx
  refine ⟨hJ, filter_armed_length w.timers ?_⟩
  intro i j s t hi hj hs ht
  have h₁ := hJ i s hi hs
  have h₂ := hJ j t hj ht
  rw [h₁] at h₂
  exact Option.some.inj h₂

/-- A single `TrackSpecies "a"` on a new monitor is such a run. -/
theorem single_timer_on_time_sample :
    ArmedIsPending (resetState (newWorld 7) "a") ∧
      armedCount (resetState (newWorld 7) "a") ≤ 1 :=
  single_timer_on_time 7 [Event.track "a"] (resetState (newWorld 7) "a") [false]
    (by decide) (by decide)

end Config

namespace Config

/-! ## Shape of the reachable states -/

end Config

namespace Myaudio

/-! ## Decoding PCM samples -/

/-- Induction over a byte slice two bytes at a time. -/
theorem pairs_induction (P : List (Fin 256) → Prop) (h0 : P [])
    (h1 : ∀ x, P [x]) (h2 : ∀ a b rest, P rest → P (a :: b :: rest)) :
    ∀ l, P l
  | [] => h0
  | [x] => h1 x
  | a :: b :: rest => h2 a b rest (pairs_induction P h0 h1 h2 rest)

theorem littleEndianUint16_eq (b0 b1 : Fin 256) :
    littleEndianUint16 b0 b1 = b0.val + 256 * b1.val := by
  unfold littleEndianUint16
  have h := Nat.mul_add_lt_is_or (show b0.val < 2 ^ 8 from b0.isLt) b1.val
  rw [Nat.shiftLeft_eq, Nat.or_comm, Nat.mul_comm b1.val (2 ^ 8), ← h]
  omega

theorem toInt16_eq_int16LE (b0 b1 : Fin 256) :
    toInt16 (littleEndianUint16 b0 b1) = int16LE b0 b1 := by
  rw [littleEndianUint16_eq]
  unfold toInt16 int16LE
  have h0 := b0.isLt
  have h1 := b1.isLt
  split <;> omega

theorem int16LE_range (b0 b1 : Fin 256) :
    -32768 ≤ int16LE b0 b1 ∧ int16LE b0 b1 ≤ 32767 := by
  unfold int16LE
  have h0 := b0.isLt
  have h1 := b1.isLt
  split <;> omega

/-- Each turn of the loop is one successful `binary.Read`, and the loop ends
at the first failed one. -/
theorem readSamples_binaryRead (buf : List (Fin 256)) (samples : List Int) :
    readSamples buf samples =
      match binaryReadInt16 buf with
      | some (sample, rest) => readSamples rest (samples ++ [sample])
      | none => samples := by
  match buf with
  | [] => simp [readSamples, binaryReadInt16]
  | [x] => simp [readSamples, binaryReadInt16]
  | a :: b :: rest => simp [readSamples, binaryReadInt16]

theorem readSamples_acc (buf : List (Fin 256)) :
    ∀ samples, readSamples buf samples = samples ++ readSamples buf [] := by
  refine pairs_induction (fun buf => ∀ samples,
    readSamples buf samples = samples ++ readSamples buf []) ?_ ?_ ?_ buf
  · intro samples
    simp [readSamples]
  · intro x samples
    simp [readSamples]
  · intro a b rest ih samples
    simp only [readSamples]
    rw [ih (samples ++ [toInt16 (littleEndianUint16 a b)]),
      ih ([] ++ [toInt16 (littleEndianUint16 a b)])]
    simp

theorem byteSliceToInts_nil : byteSliceToInts [] = [] := by
  simp [byteSliceToInts, readSamples]

theorem byteSliceToInts_single (x : Fin 256) : byteSliceToInts [x] = [] := by
  simp [byteSliceToInts, readSamples]

theorem byteSliceToInts_pair (a b : Fin 256) (rest : List (Fin 256)) :
    byteSliceToInts (a :: b :: rest) = int16LE a b :: byteSliceToInts rest := by
  unfold byteSliceToInts
  simp only [readSamples]
  rw [readSamples_acc, toInt16_eq_int16LE]
  simp

theorem byteSliceToInts_length (b : List (Fin 256)) :
    (byteSliceToInts b).length = b.length / 2 := by
  refine pairs_induction (fun b => (byteSliceToInts b).length = b.length / 2) ?_ ?_ ?_ b
  · simp [byteSliceToInts_nil]
  · intro x
    simp [byteSliceToInts_single]
  · intro a c rest ih
    rw [byteSliceToInts_pair]
    simp only [List.length_cons, ih]
    omega

theorem byteSliceToInts_getElem (b : List (Fin 256)) :
    ∀ i, i < b.length / 2 → ∃ lo hi, b[2 * i]? = some lo ∧ b[2 * i + 1]? = some hi ∧
      (byteSliceToInts b)[i]? = some (int16LE lo hi) := by
  refine pairs_induction (fun b => ∀ i, i < b.length / 2 →
    ∃ lo hi, b[2 * i]? = some lo ∧ b[2 * i + 1]? = some hi ∧
      (byteSliceToInts b)[i]? = some (int16LE lo hi)) ?_ ?_ ?_ b
  · intro i hi
    simp at hi
  · intro x i hi
    simp only [List.length_cons, List.length_nil] at hi
    omega
  · intro a c rest ih i hi
    cases i with
    | zero =>
      exact ⟨a, c, by simp, by simp, by simp [byteSliceToInts_pair]⟩
    | succ j =>
      have hj : j < rest.length / 2 := by
        simp only [List.length_cons] at hi
        omega
      obtain ⟨lo, hi', h₁, h₂, h₃⟩ := ih j hj
      refine ⟨lo, hi', ?_, ?_, ?_⟩
      · have e : 2 * (j + 1) = 2 * j + 1 + 1 := by ring
        rw [e, List.getElem?_cons_succ, List.getElem?_cons_succ]
        exact h₁
      · have e : 2 * (j + 1) + 1 = 2 * j + 1 + 1 + 1 := by ring
        rw [e, List.getElem?_cons_succ, List.getElem?_cons_succ]
        exact h₂
      · rw [byteSliceToInts_pair, List.getElem?_cons_succ]
        exact h₃

theorem byteSliceToInts_range (b : List (Fin 256)) :
    ∀ v ∈ byteSliceToInts b, -32768 ≤ v ∧ v ≤ 32767 := by
  refine pairs_induction (fun b => ∀ v ∈ byteSliceToInts b, -32768 ≤ v ∧ v ≤ 32767)
    ?_ ?_ ?_ b
  · intro v hv
    simp [byteSliceToInts_nil] at hv
  · intro x v hv
    simp [byteSliceToInts_single] at hv
  · intro a c rest ih v hv
    rw [byteSliceToInts_pair, List.mem_cons] at hv
    rcases hv with rfl | hv
    · exact int16LE_range a c
    · exact ih v hv

/-- C14 (PCM decoding): for every byte slice `b` of even length `2n`,
`byteSliceToInts b` has length `n`; its `i`-th element is the signed 16-bit
little-endian value of the bytes `b[2i]`, `b[2i+1]` (`v = b[2i] + 256 *
b[2i+1]`, minus `65536` when `v ≥ 32768`), so samples come out in the order
of their byte pairs; every element lies in `[-32768, 32767]`. -/
theorem pcm_decoding (b : List (Fin 256)) (n : Nat) (hlen : b.length = 2 * n) :
    (byteSliceToInts b).length = n ∧
    (∀ i, i < n → ∃ lo hi, b[2 * i]? = some lo ∧ b[2 * i + 1]? = some hi ∧
      (byteSliceToInts b)[i]? = some (int16LE lo hi)) ∧
    (∀ v ∈ byteSliceToInts b, -32768 ≤ v ∧ v ≤ 32767) := by
  have hn : b.length / 2 = n := by omega
  refine ⟨?_, ?_, byteSliceToInts_range b⟩
  · rw [byteSliceToInts_length, hn]
  · intro i hi
    exact byteSliceToInts_getElem b i (by omega)

/-- Witness of C14 on four bytes: the samples `1` and `-32768`. -/
theorem pcm_decoding_witness :
    (byteSliceToInts [1, 0, 0, 128]).length = 2 ∧
    (∀ i, i < 2 → ∃ lo hi, [(1 : Fin 256), 0, 0, 128][2 * i]? = some lo ∧
      [(1 : Fin 256), 0, 0, 128][2 * i + 1]? = some hi ∧
      (byteSliceToInts [1, 0, 0, 128])[i]? = some (int16LE lo hi)) ∧
    (∀ v ∈ byteSliceToInts [1, 0, 0, 128], -32768 ≤ v ∧ v ≤ 32767) :=
  pcm_decoding [1, 0, 0, 128] 2 (by decide)

theorem byteSliceToInts_dropLast (b : List (Fin 256)) :
    b.length % 2 = 1 → byteSliceToInts b = byteSliceToInts b.dropLast := by
  refine pairs_induction (fun b => b.length % 2 = 1 →
    byteSliceToInts b = byteSliceToInts b.dropLast) ?_ ?_ ?_ b
  · intro h
    simp at h
  · intro x _
    simp [byteSliceToInts_single, byteSliceToInts_nil]
  · intro a c rest ih h
    have hrest : rest.length % 2 = 1 := by
      simp only [List.length_cons] at h
      omega
    cases rest with
    | nil => simp at hrest
    | cons r rs =>
      have e : (a :: c :: r :: rs).dropLast = a :: c :: (r :: rs).dropLast := by
        simp [List.dropLast]
      rw [e, byteSliceToInts_pair, byteSliceToInts_pair, ih hrest]

/-- C15 (trailing odd byte): for every byte slice `b`, `byteSliceToInts b`
has exactly `len(b) / 2` (rounded down) elements; when `len(b)` is odd the
last byte is dropped without any error, so the result equals that for `b`
without its last byte; the empty slice and a one-byte slice give no
samples. -/
theorem odd_byte_dropped (b : List (Fin 256)) (x : Fin 256) :
    (byteSliceToInts b).length = b.length / 2 ∧
    (b.length % 2 = 1 → byteSliceToInts b = byteSliceToInts b.dropLast) ∧
    byteSliceToInts [] = [] ∧ byteSliceToInts [x] = [] :=
  ⟨byteSliceToInts_length b, byteSliceToInts_dropLast b, byteSliceToInts_nil,
    byteSliceToInts_single x⟩

/-- Witness of C15 on three bytes: the third byte is dropped. -/
theorem odd_byte_dropped_witness :
    byteSliceToInts [255, 127, 9] = byteSliceToInts [255, 127] ∧
    (byteSliceToInts [255, 127, 9]).length = 1 :=
  ⟨(odd_byte_dropped [255, 127, 9] 9).2.1 (by decide),
    (odd_byte_dropped [255, 127, 9] 9).1⟩

end Myaudio

namespace Myaudio

/-! ## Seeking -/

theorem wrapInt64_of_inInt64 (x : Int) (hx : InInt64 x) : wrapInt64 x = x := by
  unfold InInt64 at hx
  unfold wrapInt64
  omega

theorem seekCheck_buffer (b : seekableBuffer) : (seekCheck b).1 = b := by
  unfold seekCheck
  split <;> rfl

theorem seekCheck_nonneg (b : seekableBuffer) (h : 0 ≤ b.pos) :
    seekCheck b = (b, b.pos, none) := by
  unfold seekCheck
  rw [if_neg (by omega)]

theorem seekCheck_neg (b : seekableBuffer) (h : b.pos < 0) :
    seekCheck b = (b, 0, some "seekableBuffer.Seek: negative position") := by
  unfold seekCheck
  rw [if_pos h]

/-- What `Seek` does once the target is known, when the `int64` sums do not
overflow. -/
theorem Seek_of_target (b : seekableBuffer) (offset whence p : Int)
    (hcur : whence = SeekCurrent → InInt64 (b.pos + offset))
    (hend : whence = SeekEnd → InInt64 (b.Len + offset))
    (ht : seekTarget b offset whence = some p) :
    Seek b offset whence = seekCheck { b with pos := p } := by
  unfold seekTarget at ht
  unfold Seek
  by_cases h0 : whence = SeekStart
  · rw [if_pos h0] at ht
    rw [if_pos h0]
    cases ht
    rfl
  · rw [if_neg h0] at ht
    rw [if_neg h0]
    by_cases h1 : whence = SeekCurrent
    · rw [if_pos h1] at ht
      rw [if_pos h1, wrapInt64_of_inInt64 _ (hcur h1)]
      cases ht
      rfl
    · rw [if_neg h1] at ht
      rw [if_neg h1]
      by_cases h2 : whence = SeekEnd
      · rw [if_pos h2] at ht
        rw [if_pos h2, wrapInt64_of_inInt64 _ (hend h2)]
        cases ht
        rfl
      · rw [if_neg h2] at ht
        cases ht

theorem Seek_buffer (b : seekableBuffer) (offset whence : Int) :
    (Seek b offset whence).1.Buffer = b.Buffer := by
  unfold Seek
  split
  · rw [seekCheck_buffer]
  · split
    · rw [seekCheck_buffer]
    · split
      · rw [seekCheck_buffer]
      · rfl

/-- C16 (the `io.Seeker` contract): when the `int64` sum the call computes
does not overflow, the target `p` of `Seek` is `offset` for `SeekStart`, `pos + offset` for
`SeekCurrent` and `Len + offset` for `SeekEnd`; if `p ≥ 0` the call stores
`p` as the position and returns `(p, nil)`; if `p < 0` it returns an error;
for every other `whence` it returns an error; the buffer's contents, and so
its length, are never changed. -/
theorem seek_contract (b : seekableBuffer) (offset whence : Int)
    (hcur : whence = SeekCurrent → InInt64 (b.pos + offset))
    (hend : whence = SeekEnd → InInt64 (b.Len + offset)) :
    (whence = SeekStart → seekTarget b offset whence = some offset) ∧
    (whence = SeekCurrent → seekTarget b offset whence = some (b.pos + offset)) ∧
    (whence = SeekEnd → seekTarget b offset whence = some (b.Len + offset)) ∧
    (∀ p, seekTarget b offset whence = some p → 0 ≤ p →
      Seek b offset whence = ({ b with pos := p }, p, none)) ∧
    (∀ p, seekTarget b offset whence = some p → p < 0 →
      ∃ msg, (Seek b offset whence).2 = (0, some msg)) ∧
    (whence ≠ SeekStart → whence ≠ SeekCurrent → whence ≠ SeekEnd →
      ∃ msg, (Seek b offset whence).2 = (0, some msg)) ∧
    (Seek b offset whence).1.Buffer = b.Buffer ∧
    (Seek b offset whence).1.Len = b.Len := by
  refine ⟨?_, ?_, ?_, ?_, ?_, ?_, Seek_buffer b offset whence, ?_⟩
  · intro h
    simp [seekTarget, h]
  · intro h
    simp [seekTarget, h, SeekCurrent, SeekStart]
  · intro h
    simp [seekTarget, h, SeekEnd, SeekCurrent, SeekStart]
  · intro p ht hp
    rw [Seek_of_target b offset whence p hcur hend ht]
    exact seekCheck_nonneg _ hp
  · intro p ht hp
    rw [Seek_of_target b offset whence p hcur hend ht, seekCheck_neg _ hp]
    exact ⟨_, rfl⟩
  · intro h0 h1 h2
    unfold Seek
    rw [if_neg h0, if_neg h1, if_neg h2]
    exact ⟨_, rfl⟩
  · unfold seekableBuffer.Len
    rw [Seek_buffer]

/-- Witness of C16: on a buffer of three bytes at position 5, a seek to two
bytes before the end. -/
theorem seek_contract_witness :
    Seek { Buffer := [1, 2, 3], pos := 5 } (-2) SeekEnd
      = ({ Buffer := [1, 2, 3], pos := 1 }, 1, none) :=
  (seek_contract { Buffer := [1, 2, 3], pos := 5 } (-2) SeekEnd
    (fun _ => ⟨by decide, by decide⟩) (fun _ => ⟨by decide, by decide⟩)).2.2.2.1 1
    (by decide) (by decide)

/-- For an invalid `whence` the call returns before touching `pos`: the
buffer is exactly as before. -/
theorem Seek_invalid_whence (b : seekableBuffer) (offset whence : Int)
    (h0 : whence ≠ SeekStart) (h1 : whence ≠ SeekCurrent) (h2 : whence ≠ SeekEnd) :
    Seek b offset whence = (b, 0, some "seekableBuffer.Seek: invalid whence") := by
  unfold Seek
  rw [if_neg h0, if_neg h1, if_neg h2]

/-- C17 fails on the code: on a new buffer `Seek(-1, io.SeekStart)` returns
the error of a negative position, yet `pos` is `-1` after the call and not
`0` as before it; the position stays negative, so a following
`Seek(0, io.SeekCurrent)` fails as well.  The assignment to `pos` comes before
the check of its sign. -/
theorem seek_error_keeps_negative_pos :
    newSeekableBuffer.pos = 0 ∧
    Seek newSeekableBuffer (-1) SeekStart
      = ({ Buffer := [], pos := -1 }, 0, some "seekableBuffer.Seek: negative position") ∧
    (seekAll newSeekableBuffer [(-1, SeekStart)]).pos = -1 ∧
    Seek { Buffer := [], pos := -1 } 0 SeekCurrent
      = ({ Buffer := [], pos := -1 }, 0, some "seekableBuffer.Seek: negative position") := by
  refine ⟨by decide, by decide, by decide, by decide⟩

end Myaudio
